import Mathlib

set_option maxRecDepth 100000

/-!
Verification of the FIFO position/lot accounting engine
(`backend/app/services/position_engine.py`).

The Python code is shallowly embedded: Python `float` arithmetic is
idealised as exact rational arithmetic (`ℚ`), calendar dates are encoded
as natural numbers whose numeric order agrees with calendar order
(e.g. `110` for 2024-01-10), the `deque` of lots is a `List` whose
head is the front of the queue, and the insertion-ordered `dict` of
positions is an association list updated in place.  A sell that raises
`ValueError` is an `Except.error`; `process_trades` catches it and
continues, which is modelled by keeping the old position.
-/

/-- A buy lot: original shares, effective unit price (fee amortised in),
trade date, originating trade id, and the still-unconsumed share count. -/
structure Lot where
  shares : ℚ
  price_usd : ℚ
  trade_date : Nat
  trade_id : Nat
  remaining_shares : ℚ
  deriving DecidableEq

/-- One matched-lot fragment of a sell (an entry of `matched_lots`). -/
structure MatchedLot where
  buy_trade_id : Nat
  buy_price : ℚ
  buy_date : Nat
  shares : ℚ
  cost_basis : ℚ
  proceeds : ℚ
  pl : ℚ
  deriving DecidableEq

/-- The realized-P&L record returned by `process_sell`. -/
structure RealizedInfo where
  ticker : String
  trade_id_sell_ref : Nat
  shares : ℚ
  pl_usd : ℚ
  pl_per_share_usd : ℚ
  matched_lots : List MatchedLot
  sell_price : ℚ
  sell_date : Nat
  total_cost_basis : ℚ
  trade_fee_usd : ℚ
  deriving DecidableEq

/-- A single-ticker position: FIFO lot queue plus aggregates. -/
structure Position where
  ticker : String
  lots : List Lot
  total_shares : ℚ
  total_cost : ℚ
  realized_pl : ℚ
  realized_history : List RealizedInfo
  first_buy_date : Option Nat
  deriving DecidableEq

/-- `Position(ticker)`: the freshly constructed, empty position. -/
def Position.init (ticker : String) : Position :=
  ⟨ticker, [], 0, 0, 0, [], none⟩

/-- `Position.add_buy`: append a lot whose effective price folds the fee
in per share, and bump the aggregates. -/
def Position.add_buy (p : Position) (shares price_usd : ℚ)
    (trade_date trade_id : Nat) (trade_fee_usd : ℚ) : Position :=
  let first := match p.first_buy_date with
    | none => some trade_date
    | some d => some d
  let fee_per_share := if trade_fee_usd ≠ 0 then trade_fee_usd / shares else 0
  let effective_price := price_usd + fee_per_share
  let lot : Lot := ⟨shares, effective_price, trade_date, trade_id, shares⟩
  { p with
      first_buy_date := first
      lots := p.lots ++ [lot]
      total_shares := p.total_shares + shares
      total_cost := p.total_cost + shares * effective_price }

/-- Aggregates accumulated by the FIFO matching loop of `process_sell`. -/
structure SellLoopResult where
  matched : List MatchedLot
  total_cost_basis : ℚ
  total_pl : ℚ
  sold : ℚ
  lots : List Lot
  deriving DecidableEq

/-- The `while remaining_to_sell > 0 and len(self.lots) > 0` loop of
`process_sell`: consume lots from the front, popping a lot when it is
fully used and decrementing it in place otherwise. -/
def sellLoop (price_usd : ℚ) : List Lot → ℚ → SellLoopResult
  | [], _ => ⟨[], 0, 0, 0, []⟩
  | lot :: rest, remaining =>
    if remaining ≤ 0 then ⟨[], 0, 0, 0, lot :: rest⟩
    else if lot.remaining_shares ≤ remaining then
      let sell_shares := lot.remaining_shares
      let cost_basis := sell_shares * lot.price_usd
      let proceeds := sell_shares * price_usd
      let pl := proceeds - cost_basis
      let m : MatchedLot :=
        ⟨lot.trade_id, lot.price_usd, lot.trade_date, sell_shares, cost_basis, proceeds, pl⟩
      let r := sellLoop price_usd rest (remaining - sell_shares)
      ⟨m :: r.matched, cost_basis + r.total_cost_basis, pl + r.total_pl,
        sell_shares + r.sold, r.lots⟩
    else
      let sell_shares := remaining
      let cost_basis := sell_shares * lot.price_usd
      let proceeds := sell_shares * price_usd
      let pl := proceeds - cost_basis
      let m : MatchedLot :=
        ⟨lot.trade_id, lot.price_usd, lot.trade_date, sell_shares, cost_basis, proceeds, pl⟩
      ⟨[m], cost_basis, pl, sell_shares,
        { lot with remaining_shares := lot.remaining_shares - sell_shares } :: rest⟩

/-- `Position.process_sell`: validate against oversell, run the FIFO
loop, subtract the sell fee once from the total P&L, and emit the
realized record.  `Except.error` models the raised `ValueError`. -/
def Position.process_sell (p : Position) (shares price_usd : ℚ)
    (trade_date trade_id : Nat) (trade_fee_usd : ℚ) :
    Except String (RealizedInfo × Position) :=
  if p.total_shares < shares then
    Except.error "sell quantity exceeds held quantity"
  else
    let r := sellLoop price_usd p.lots shares
    let total_pl := if trade_fee_usd ≠ 0 then r.total_pl - trade_fee_usd else r.total_pl
    let info : RealizedInfo :=
      { ticker := p.ticker
        trade_id_sell_ref := trade_id
        shares := shares
        pl_usd := total_pl
        pl_per_share_usd := if shares > 0 then total_pl / shares else 0
        matched_lots := r.matched
        sell_price := price_usd
        sell_date := trade_date
        total_cost_basis := r.total_cost_basis
        trade_fee_usd := trade_fee_usd }
    Except.ok (info,
      { p with
          lots := r.lots
          total_shares := p.total_shares - r.sold
          total_cost := p.total_cost - r.total_cost_basis
          realized_pl := p.realized_pl + total_pl
          realized_history := p.realized_history ++ [info] })

/-- The caller-side view of `process_sell` under try/except: on failure
the position object is untouched and no record is produced. -/
def Position.try_sell (p : Position) (shares price_usd : ℚ)
    (trade_date trade_id : Nat) (trade_fee_usd : ℚ) :
    Position × Option RealizedInfo :=
  match p.process_sell shares price_usd trade_date trade_id trade_fee_usd with
  | Except.ok r => (r.2, some r.1)
  | Except.error _ => (p, none)

/-- `Position.get_avg_cost`: average cost of the currently held shares,
0 for an empty position. -/
def Position.get_avg_cost (p : Position) : ℚ :=
  if p.total_shares = 0 then 0 else p.total_cost / p.total_shares

/-- `Position.get_unrealized_pl`: `(pl, pl_percent)` against a market
price, `(0, 0)` for an empty position, percent floored to 0 when the
cost basis is not positive. -/
def Position.get_unrealized_pl (p : Position) (current_price : ℚ) : ℚ × ℚ :=
  if p.total_shares = 0 then (0, 0)
  else
    let market_value := p.total_shares * current_price
    let unrealized_pl := market_value - p.total_cost
    let pct := if p.total_cost > 0 then unrealized_pl / p.total_cost * 100 else 0
    (unrealized_pl, pct)

/-- `Position.is_closed`: the position holds no shares. -/
def Position.is_closed (p : Position) : Bool :=
  decide (p.total_shares = 0)

/-- Python `str.upper()` on the ticker strings (ASCII case mapping). -/
def upperString (s : String) : String :=
  String.mk (s.data.map Char.toUpper)

/-- An input trade record (`fee_usd` defaults to 0 when absent). -/
structure Trade where
  id : Nat
  ticker : String
  side : String
  shares : ℚ
  price_usd : ℚ
  trade_date : Nat
  fee_usd : ℚ
  deriving DecidableEq

/-- The replay order: trade date ascending, then trade id ascending. -/
def tradeLe (a b : Trade) : Prop :=
  a.trade_date < b.trade_date ∨ (a.trade_date = b.trade_date ∧ a.id ≤ b.id)

instance : DecidableRel tradeLe := fun a b => by
  unfold tradeLe; infer_instance

instance : IsTotal Trade tradeLe := by
  constructor
  intro a b
  unfold tradeLe
  omega

instance : IsTrans Trade tradeLe := by
  constructor
  intro a b c hab hbc
  unfold tradeLe at hab hbc ⊢
  omega

/-- `sorted(trades, key=lambda x: (x.trade_date, x.id))`: a stable sort
by the (date, id) key. -/
def sortTrades (l : List Trade) : List Trade :=
  List.insertionSort tradeLe l

/-- The multi-ticker engine: insertion-ordered ticker→position mapping
plus the flat realized-record list. -/
structure PositionEngine where
  positions : List (String × Position)
  all_realized_pl : List RealizedInfo
  deriving DecidableEq

/-- `PositionEngine()`: the empty engine. -/
def PositionEngine.init : PositionEngine := ⟨[], []⟩

/-- First-occurrence lookup in the position mapping. -/
def lookupPos (ps : List (String × Position)) (k : String) : Option Position :=
  match ps with
  | [] => none
  | (k', p) :: rest => if k' = k then some p else lookupPos rest k

/-- In-place update of the first binding of `k`, appending when absent
(the dict keeps insertion order). -/
def setPos (ps : List (String × Position)) (k : String) (p : Position) :
    List (String × Position) :=
  match ps with
  | [] => [(k, p)]
  | (k', q) :: rest => if k' = k then (k', p) :: rest else (k', q) :: setPos rest k p

/-- The body of the replay loop of `process_trades` for one trade:
ensure the upper-cased ticker has a position, then route on the side;
a failing sell is caught and skipped. -/
def PositionEngine.step (e : PositionEngine) (tr : Trade) : PositionEngine :=
  let tk := upperString tr.ticker
  let pos := (lookupPos e.positions tk).getD (Position.init tk)
  if tr.side = "BUY" then
    { e with positions :=
        setPos e.positions tk (pos.add_buy tr.shares tr.price_usd tr.trade_date tr.id tr.fee_usd) }
  else if tr.side = "SELL" then
    match pos.process_sell tr.shares tr.price_usd tr.trade_date tr.id tr.fee_usd with
    | Except.ok r =>
        { positions := setPos e.positions tk r.2
          all_realized_pl := e.all_realized_pl ++ [r.1] }
    | Except.error _ => { e with positions := setPos e.positions tk pos }
  else
    { e with positions := setPos e.positions tk pos }

/-- `PositionEngine.process_trades`: reset the state, sort by
(date, id), and replay every trade. -/
def PositionEngine.process_trades (_e : PositionEngine) (trades : List Trade) :
    PositionEngine :=
  (sortTrades trades).foldl PositionEngine.step PositionEngine.init

/-- `PositionEngine.get_position`: case-insensitive lookup. -/
def PositionEngine.get_position (e : PositionEngine) (ticker : String) : Option Position :=
  lookupPos e.positions (upperString ticker)

/-- `PositionEngine.get_total_realized_pl`: sum of `realized_pl` over
all positions. -/
def PositionEngine.get_total_realized_pl (e : PositionEngine) : ℚ :=
  (e.positions.map (fun kp => kp.2.realized_pl)).sum

/-- `PositionEngine.get_all_realized_pl_history`: the flat record list. -/
def PositionEngine.get_all_realized_pl_history (e : PositionEngine) : List RealizedInfo :=
  e.all_realized_pl

/-- Aggregate remaining shares over a lot queue. -/
def lotsShares (lots : List Lot) : ℚ :=
  (lots.map Lot.remaining_shares).sum

/-- Aggregate remaining cost basis over a lot queue. -/
def lotsCost (lots : List Lot) : ℚ :=
  (lots.map (fun lot => lot.remaining_shares * lot.price_usd)).sum

/-- The conservation invariant of a position: the aggregates match the
lot queue, every lot keeps `0 < remaining_shares ≤ shares`, and hence no
fully consumed lot is retained. -/
def PosInv (p : Position) : Prop :=
  p.total_shares = lotsShares p.lots ∧
  p.total_cost = lotsCost p.lots ∧
  ∀ lot ∈ p.lots, 0 < lot.remaining_shares ∧ lot.remaining_shares ≤ lot.shares

instance (p : Position) : Decidable (PosInv p) := by
  unfold PosInv; infer_instance

/-- One position-level operation of the reachability language of the
invariant: a buy or a (possibly failing, hence state-preserving) sell. -/
inductive Op where
  | buy : ℚ → ℚ → Nat → Nat → ℚ → Op
  | sell : ℚ → ℚ → Nat → Nat → ℚ → Op
  deriving DecidableEq

/-- The share count carried by an operation. -/
def Op.opShares : Op → ℚ
  | Op.buy s _ _ _ _ => s
  | Op.sell s _ _ _ _ => s

/-- Apply one operation to a position. -/
def applyOp (p : Position) : Op → Position
  | Op.buy s pr d i f => p.add_buy s pr d i f
  | Op.sell s pr d i f => (p.try_sell s pr d i f).1

/-- Ensure the ticker has an entry, exactly as the replay loop does
before dispatching on the trade side. -/
def ensurePosition (e : PositionEngine) (tk : String) : PositionEngine :=
  { e with positions :=
      setPos e.positions tk ((lookupPos e.positions tk).getD (Position.init tk)) }

/-- The literal trade list of the end-to-end scenario. -/
def demoTrades : List Trade :=
  [⟨1, "AAPL", "BUY", 10, 100, 110, 0⟩,
   ⟨2, "AAPL", "BUY", 5, 120, 202, 0⟩,
   ⟨3, "AAPL", "SELL", 8, 130, 315, 1.60⟩,
   ⟨4, "MSFT", "BUY", 3, 300, 401, 0⟩,
   ⟨5, "MSFT", "SELL", 3, 350, 601, 0⟩]

/-- The engine state after replaying the scenario. -/
def demoEngine : PositionEngine :=
  PositionEngine.init.process_trades demoTrades

/-- C1: FIFO matching and the literal end-to-end scenario.  The 8-share
AAPL sell consumes only the first lot (2 of 10 shares remain, the
5-share lot is untouched) at a $100 cost basis, leaving 7 shares and
realized P&L $238.40; MSFT ends closed with realized P&L $150.00; the
engine-wide total realized P&L is $388.40. -/
theorem fifo_end_to_end :
    (demoEngine.get_position "AAPL").map Position.lots =
      some [⟨10, 100, 110, 1, 2⟩, ⟨5, 120, 202, 2, 5⟩] ∧
    (demoEngine.all_realized_pl.map RealizedInfo.matched_lots) =
      [[⟨1, 100, 110, 8, 800, 1040, 240⟩], [⟨4, 300, 401, 3, 900, 1050, 150⟩]] ∧
    (demoEngine.get_position "AAPL").map Position.total_shares = some 7 ∧
    (demoEngine.get_position "AAPL").map Position.realized_pl = some 238.40 ∧
    (demoEngine.get_position "MSFT").map Position.is_closed = some true ∧
    (demoEngine.get_position "MSFT").map Position.realized_pl = some 150.00 ∧
    demoEngine.get_total_realized_pl = 388.40 := by
  with_unfolding_all decide

/-- C3: at the single-sell granularity, the insufficient-shares error is
signalled exactly when the requested shares exceed the held shares, and a
failed sell leaves the position completely unchanged and yields no
realized record. -/
theorem oversell_rejection (p : Position) (shares price_usd : ℚ)
    (trade_date trade_id : Nat) (fee : ℚ) :
    ((∃ msg, p.process_sell shares price_usd trade_date trade_id fee = Except.error msg) ↔
      p.total_shares < shares) ∧
    ((p.try_sell shares price_usd trade_date trade_id fee).2 = none ↔
      p.total_shares < shares) ∧
    (p.total_shares < shares →
      (p.try_sell shares price_usd trade_date trade_id fee).1 = p) := by
  unfold Position.try_sell Position.process_sell
  by_cases h : p.total_shares < shares <;> simp [h]

theorem oversell_rejection_witness :
    ((Position.init "A").try_sell 1 5 1 1 0).2 = none ∧
    ((Position.init "A").try_sell 1 5 1 1 0).1 = Position.init "A" :=
  ⟨(oversell_rejection (Position.init "A") 1 5 1 1 0).2.1.mpr
      (by with_unfolding_all decide),
   (oversell_rejection (Position.init "A") 1 5 1 1 0).2.2
      (by with_unfolding_all decide)⟩

/-- C8: an empty position reports average cost 0 and unrealized P&L
(0, 0) at every price, and a zero cost basis floors the unrealized-P&L
percent to 0; the guards make the divisions unreachable. -/
theorem zero_division_floors (p : Position) (price : ℚ) :
    (p.total_shares = 0 →
      p.get_avg_cost = 0 ∧ p.get_unrealized_pl price = (0, 0)) ∧
    (p.total_cost = 0 → (p.get_unrealized_pl price).2 = 0) := by
  unfold Position.get_avg_cost Position.get_unrealized_pl
  constructor
  · intro h
    simp [h]
  · intro h
    by_cases hs : p.total_shares = 0 <;> simp [h, hs]

theorem zero_division_floors_witness :
    (Position.init "A").get_avg_cost = 0 ∧
    (Position.init "A").get_unrealized_pl 10 = (0, 0) ∧
    ((Position.init "A").get_unrealized_pl 10).2 = 0 := by
  obtain ⟨h1, h2⟩ := zero_division_floors (Position.init "A") 10
  exact ⟨(h1 rfl).1, (h1 rfl).2, h2 rfl⟩

theorem sellLoop_matched_pl (price : ℚ) (lots : List Lot) :
    ∀ remaining : ℚ,
      (sellLoop price lots remaining).total_pl =
        ((sellLoop price lots remaining).matched.map MatchedLot.pl).sum := by
  induction lots with
  | nil =>
    intro remaining
    simp [sellLoop]
  | cons lot rest ih =>
    intro remaining
    unfold sellLoop
    by_cases h1 : remaining ≤ 0
    · simp [h1]
    · by_cases h2 : lot.remaining_shares ≤ remaining
      · simp only [h1, h2, if_true, if_false]
        simp [ih]
      · simp [h1, h2]

/-- C6: a buy with a fee appends a lot at effective price
`price + fee/shares`, raising the cost basis by `shares*price + fee`; a
successful sell keeps the matched fragments fee-free and subtracts the
fee exactly once, so the record's `pl_usd` is the fragment-P&L sum minus
the fee. -/
theorem fee_asymmetry (p : Position) (s price : ℚ) (d i : Nat) (f : ℚ)
    (hs : 0 < s) :
    (p.add_buy s price d i f).lots = p.lots ++ [⟨s, price + f / s, d, i, s⟩] ∧
    (p.add_buy s price d i f).total_cost = p.total_cost + s * price + f ∧
    (∀ info p', p.process_sell s price d i f = Except.ok (info, p') →
      info.pl_usd = (info.matched_lots.map MatchedLot.pl).sum - f) := by
  have hs0 : s ≠ 0 := ne_of_gt hs
  refine ⟨?_, ?_, ?_⟩
  · unfold Position.add_buy
    by_cases hf : f = 0 <;> simp [hf]
  · unfold Position.add_buy
    by_cases hf : f = 0
    · simp [hf]
    · simp only [hf, ne_eq, not_false_eq_true, if_true]
      field_simp
      ring
  · intro info p' h
    unfold Position.process_sell at h
    by_cases hover : p.total_shares < s
    · simp [hover] at h
    · simp only [hover, if_false, Except.ok.injEq, Prod.mk.injEq] at h
      obtain ⟨hinfo, -⟩ := h
      subst hinfo
      by_cases hf : f = 0
      · simp [hf, sellLoop_matched_pl]
      · simp [hf, sellLoop_matched_pl]

theorem lotsShares_nonneg (lots : List Lot)
    (h : ∀ lot ∈ lots, 0 < lot.remaining_shares) : 0 ≤ lotsShares lots := by
  unfold lotsShares
  apply List.sum_nonneg
  intro x hx
  obtain ⟨lot, hlot, rfl⟩ := List.mem_map.mp hx
  exact le_of_lt (h lot hlot)

theorem sellLoop_spec (price : ℚ) (lots : List Lot) :
    ∀ remaining : ℚ, 0 ≤ remaining → remaining ≤ lotsShares lots →
      (∀ lot ∈ lots, 0 < lot.remaining_shares ∧ lot.remaining_shares ≤ lot.shares) →
      (sellLoop price lots remaining).sold = remaining ∧
      lotsShares (sellLoop price lots remaining).lots = lotsShares lots - remaining ∧
      (sellLoop price lots remaining).total_cost_basis =
        lotsCost lots - lotsCost (sellLoop price lots remaining).lots ∧
      (∀ lot ∈ (sellLoop price lots remaining).lots,
        0 < lot.remaining_shares ∧ lot.remaining_shares ≤ lot.shares) ∧
      (remaining = lotsShares lots → (sellLoop price lots remaining).lots = []) := by
  induction lots with
  | nil =>
    intro remaining h0 hle _
    have hz : remaining = 0 := le_antisymm (by simpa [lotsShares] using hle) h0
    subst hz
    simp [sellLoop, lotsShares, lotsCost]
  | cons lot rest ih =>
    intro remaining h0 hle hinv
    have hlot := hinv lot (List.mem_cons_self lot rest)
    have hrest : ∀ l ∈ rest, 0 < l.remaining_shares ∧ l.remaining_shares ≤ l.shares :=
      fun l hl => hinv l (List.mem_cons_of_mem lot hl)
    have hrestnn : 0 ≤ lotsShares rest :=
      lotsShares_nonneg rest (fun l hl => (hrest l hl).1)
    have hcons : lotsShares (lot :: rest) = lot.remaining_shares + lotsShares rest := by
      simp [lotsShares]
    have hconsC : lotsCost (lot :: rest) =
        lot.remaining_shares * lot.price_usd + lotsCost rest := by
      simp [lotsCost]
    unfold sellLoop
    by_cases h1 : remaining ≤ 0
    · have hz : remaining = 0 := le_antisymm h1 h0
      subst hz
      simp only [le_refl, if_true]
      refine ⟨by simp, by simp, by simp, hinv, ?_⟩
      intro habs
      exfalso
      rw [hcons] at habs
      have := hlot.1
      linarith
    · by_cases h2 : lot.remaining_shares ≤ remaining
      · have hr0 : 0 ≤ remaining - lot.remaining_shares := by linarith
        have hrle : remaining - lot.remaining_shares ≤ lotsShares rest := by
          rw [hcons] at hle; linarith
        obtain ⟨ihsold, ihshares, ihcost, ihinv, ihempty⟩ :=
          ih (remaining - lot.remaining_shares) hr0 hrle hrest
        simp only [h1, h2, if_true, if_false]
        refine ⟨?_, ?_, ?_, ihinv, ?_⟩
        · simp only [ihsold]; ring
        · simp only [ihshares, hcons]; ring
        · simp only [ihcost, hconsC]; ring
        · intro habs
          apply ihempty
          rw [hcons] at habs
          linarith
      · have hlt : remaining < lot.remaining_shares := not_le.mp h2
        have hpos : 0 < remaining := not_le.mp h1
        simp only [h1, h2, if_true, if_false]
        refine ⟨by simp, ?_, ?_, ?_, ?_⟩
        · simp only [lotsShares, List.map_cons, List.sum_cons]
          ring
        · simp only [lotsCost, List.map_cons, List.sum_cons]
          ring
        · intro l hl
          rcases List.mem_cons.mp hl with hhead | htail
          · subst hhead
            constructor
            · show (0 : ℚ) < lot.remaining_shares - remaining
              linarith
            · show lot.remaining_shares - remaining ≤ lot.shares
              have := hlot.2
              linarith
          · exact hrest l htail
        · intro habs
          exfalso
          rw [hcons] at habs
          linarith

theorem fee_asymmetry_witness :
    (0 : ℚ) < 2 ∧
    ((Position.init "A").add_buy 2 10 1 1 1).lots =
      (Position.init "A").lots ++ [⟨2, 10 + 1 / 2, 1, 1, 2⟩] ∧
    ((Position.init "A").add_buy 2 10 1 1 1).total_cost =
      (Position.init "A").total_cost + 2 * 10 + 1 :=
  ⟨by with_unfolding_all decide,
   (fee_asymmetry (Position.init "A") 2 10 1 1 1 (by with_unfolding_all decide)).1,
   (fee_asymmetry (Position.init "A") 2 10 1 1 1 (by with_unfolding_all decide)).2.1⟩

theorem add_buy_posInv {p : Position} (s price : ℚ) (d i : Nat) (f : ℚ)
    (hs : 0 < s) (h : PosInv p) : PosInv (p.add_buy s price d i f) := by
  obtain ⟨h1, h2, h3⟩ := h
  unfold Position.add_buy PosInv
  refine ⟨?_, ?_, ?_⟩
  · simp [lotsShares, h1]
  · simp [lotsCost, h2]
  · intro lot hlot
    simp only [List.mem_append, List.mem_singleton] at hlot
    rcases hlot with hold | hnew
    · exact h3 lot hold
    · subst hnew
      exact ⟨hs, le_refl s⟩

theorem try_sell_posInv {p : Position} (s price : ℚ) (d i : Nat) (f : ℚ)
    (hs : 0 < s) (h : PosInv p) : PosInv (p.try_sell s price d i f).1 := by
  obtain ⟨h1, h2, h3⟩ := h
  unfold Position.try_sell Position.process_sell
  by_cases hover : p.total_shares < s
  · simp only [hover, if_true]
    exact ⟨h1, h2, h3⟩
  · have hle : s ≤ lotsShares p.lots := by rw [← h1]; exact not_lt.mp hover
    obtain ⟨l1, l2, l3, l4, l5⟩ := sellLoop_spec price p.lots s (le_of_lt hs) hle h3
    simp only [hover, if_false]
    refine ⟨?_, ?_, l4⟩
    · show p.total_shares - (sellLoop price p.lots s).sold = _
      rw [l1, l2, h1]
    · show p.total_cost - (sellLoop price p.lots s).total_cost_basis = _
      rw [l3, h2]
      ring

theorem foldl_posInv (ops : List Op) :
    ∀ p : Position, PosInv p → (∀ op ∈ ops, 0 < op.opShares) →
      PosInv (ops.foldl applyOp p) := by
  induction ops with
  | nil =>
    intro p hp _
    simpa using hp
  | cons op rest ih =>
    intro p hp hpos
    simp only [List.foldl_cons]
    apply ih
    · cases op with
      | buy s pr d i f =>
        exact add_buy_posInv s pr d i f
          (by simpa [Op.opShares] using hpos _ (List.mem_cons_self _ _)) hp
      | sell s pr d i f =>
        exact try_sell_posInv s pr d i f
          (by simpa [Op.opShares] using hpos _ (List.mem_cons_self _ _)) hp
    · intro o ho
      exact hpos o (List.mem_cons_of_mem _ ho)

/-- C4: for every position reachable from the empty position by buys and
(possibly failing, hence skipped) sells of positive share counts, the
aggregates mirror the lot queue and every retained lot keeps a strictly
positive remaining count not exceeding its original count — in
particular fully consumed lots are never retained. -/
theorem conservation_invariant (tk : String) (ops : List Op)
    (hpos : ∀ op ∈ ops, 0 < op.opShares) :
    (ops.foldl applyOp (Position.init tk)).total_shares =
      lotsShares (ops.foldl applyOp (Position.init tk)).lots ∧
    (ops.foldl applyOp (Position.init tk)).total_cost =
      lotsCost (ops.foldl applyOp (Position.init tk)).lots ∧
    ∀ lot ∈ (ops.foldl applyOp (Position.init tk)).lots,
      0 < lot.remaining_shares ∧ lot.remaining_shares ≤ lot.shares := by
  have hbase : PosInv (Position.init tk) := by
    unfold PosInv lotsShares lotsCost Position.init
    simp
  exact foldl_posInv ops (Position.init tk) hbase hpos

theorem conservation_invariant_witness :
    (∀ op ∈ [Op.buy 2 10 1 1 0, Op.sell 1 12 2 2 0], 0 < op.opShares) ∧
    ([Op.buy 2 10 1 1 0, Op.sell 1 12 2 2 0].foldl applyOp (Position.init "A")).total_shares =
      lotsShares ([Op.buy 2 10 1 1 0, Op.sell 1 12 2 2 0].foldl applyOp (Position.init "A")).lots :=
  ⟨by with_unfolding_all decide,
   (conservation_invariant "A" [Op.buy 2 10 1 1 0, Op.sell 1 12 2 2 0]
      (by with_unfolding_all decide)).1⟩

/-- C7: with the conservation invariant, selling exactly the held share
count succeeds, drives the share count to 0, closes the position and
empties the lot queue, while the realized P&L absorbs exactly the sell's
net P&L and the first-buy date is untouched; moreover `add_buy` sets the
first-buy date only when unset and never resets it. -/
theorem full_liquidation (p : Position) (price : ℚ) (d i : Nat) (f : ℚ)
    (hinv : PosInv p) (hpos : 0 < p.total_shares) :
    (∃ info p', p.process_sell p.total_shares price d i f = Except.ok (info, p') ∧
      p'.total_shares = 0 ∧ p'.is_closed = true ∧ p'.lots = [] ∧
      p'.realized_pl = p.realized_pl + info.pl_usd ∧
      p'.first_buy_date = p.first_buy_date) ∧
    (∀ (q : Position) (s' pr' : ℚ) (d' i' : Nat) (f' : ℚ),
      (q.add_buy s' pr' d' i' f').first_buy_date = some (q.first_buy_date.getD d')) := by
  constructor
  · obtain ⟨h1, h2, h3⟩ := hinv
    obtain ⟨l1, l2, l3, l4, l5⟩ :=
      sellLoop_spec price p.lots p.total_shares (le_of_lt hpos) (le_of_eq h1) h3
    have hempty : (sellLoop price p.lots p.total_shares).lots = [] := l5 h1
    unfold Position.process_sell
    have hover : ¬ p.total_shares < p.total_shares := lt_irrefl _
    simp only [hover, if_false]
    refine ⟨_, _, rfl, ?_, ?_, ?_, ?_, ?_⟩
    · show p.total_shares - (sellLoop price p.lots p.total_shares).sold = 0
      rw [l1, sub_self]
    · show Position.is_closed _ = true
      unfold Position.is_closed
      simp only [decide_eq_true_eq]
      show p.total_shares - (sellLoop price p.lots p.total_shares).sold = 0
      rw [l1, sub_self]
    · exact hempty
    · rfl
    · rfl
  · intro q s' pr' d' i' f'
    unfold Position.add_buy
    cases hq : q.first_buy_date <;> simp [hq]

theorem full_liquidation_witness :
    PosInv ((Position.init "A").add_buy 2 10 1 1 0) ∧
    0 < ((Position.init "A").add_buy 2 10 1 1 0).total_shares ∧
    (∃ info p', ((Position.init "A").add_buy 2 10 1 1 0).process_sell
        ((Position.init "A").add_buy 2 10 1 1 0).total_shares 12 2 2 0 =
        Except.ok (info, p') ∧
      p'.total_shares = 0 ∧ p'.is_closed = true ∧ p'.lots = [] ∧
      p'.realized_pl = ((Position.init "A").add_buy 2 10 1 1 0).realized_pl + info.pl_usd ∧
      p'.first_buy_date = ((Position.init "A").add_buy 2 10 1 1 0).first_buy_date) :=
  ⟨by with_unfolding_all decide, by with_unfolding_all decide,
   (full_liquidation ((Position.init "A").add_buy 2 10 1 1 0) 12 2 2 0
      (by with_unfolding_all decide) (by with_unfolding_all decide)).1⟩

theorem tradeLe_antisymm_ids {a b : Trade} (h1 : tradeLe a b) (h2 : tradeLe b a) :
    a.trade_date = b.trade_date ∧ a.id = b.id := by
  unfold tradeLe at h1 h2
  omega

theorem sorted_perm_unique (l₁ : List Trade) :
    ∀ l₂ : List Trade,
      (∀ a ∈ l₁, ∀ b ∈ l₁, a.id = b.id → a = b) →
      l₁.Perm l₂ → l₁.Sorted tradeLe → l₂.Sorted tradeLe → l₁ = l₂ := by
  induction l₁ with
  | nil =>
    intro l₂ _ hp _ _
    exact hp.nil_eq
  | cons a t₁ ih =>
    intro l₂ hinj hp hs₁ hs₂
    cases l₂ with
    | nil =>
      exact absurd hp.eq_nil (by simp)
    | cons b t₂ =>
      have hab : a = b := by
        by_contra hne
        have ha2 : a ∈ b :: t₂ := hp.mem_iff.mp (List.mem_cons_self a t₁)
        have hb1 : b ∈ a :: t₁ := hp.mem_iff.mpr (List.mem_cons_self b t₂)
        have hat2 : a ∈ t₂ := by
          rcases List.mem_cons.mp ha2 with h | h
          · exact absurd h hne
          · exact h
        have hbt1 : b ∈ t₁ := by
          rcases List.mem_cons.mp hb1 with h | h
          · exact absurd h.symm hne
          · exact h
        have hle1 : tradeLe a b := (List.sorted_cons.mp hs₁).1 b hbt1
        have hle2 : tradeLe b a := (List.sorted_cons.mp hs₂).1 a hat2
        exact hne (hinj a (List.mem_cons_self a t₁) b (List.mem_cons_of_mem a hbt1)
          (tradeLe_antisymm_ids hle1 hle2).2)
      subst hab
      have hp' : t₁.Perm t₂ := hp.cons_inv
      have hrec := ih t₂
        (fun x hx y hy hid =>
          hinj x (List.mem_cons_of_mem a hx) y (List.mem_cons_of_mem a hy) hid)
        hp' (List.sorted_cons.mp hs₁).2 (List.sorted_cons.mp hs₂).2
      rw [hrec]

theorem sortTrades_eq_of_perm {l₁ l₂ : List Trade}
    (hperm : l₁.Perm l₂) (hids : (l₁.map Trade.id).Nodup) :
    sortTrades l₁ = sortTrades l₂ := by
  unfold sortTrades
  apply sorted_perm_unique
  · intro a ha b hb hid
    exact List.inj_on_of_nodup_map hids
      ((List.perm_insertionSort tradeLe l₁).mem_iff.mp ha)
      ((List.perm_insertionSort tradeLe l₁).mem_iff.mp hb) hid
  · exact (List.perm_insertionSort tradeLe l₁).trans
      (hperm.trans (List.perm_insertionSort tradeLe l₂).symm)
  · exact List.sorted_insertionSort tradeLe l₁
  · exact List.sorted_insertionSort tradeLe l₂

/-- C2: when every trade carries a distinct id, replaying any
permutation of the same trade list on a fresh engine produces the very
same engine state — same positions (lots, aggregates, first-buy dates),
same realized records, hence same average costs — because replay sorts
by (date, id) first. -/
theorem process_trades_perm_invariant (e₁ e₂ : PositionEngine) {l₁ l₂ : List Trade}
    (hperm : l₁.Perm l₂) (hids : (l₁.map Trade.id).Nodup) :
    e₁.process_trades l₁ = e₂.process_trades l₂ := by
  unfold PositionEngine.process_trades
  rw [sortTrades_eq_of_perm hperm hids]

theorem process_trades_perm_invariant_witness :
    ([⟨1, "AAPL", "BUY", 10, 100, 110, 0⟩, ⟨2, "AAPL", "BUY", 5, 120, 202, 0⟩] :
        List Trade).Perm
      [⟨2, "AAPL", "BUY", 5, 120, 202, 0⟩, ⟨1, "AAPL", "BUY", 10, 100, 110, 0⟩] ∧
    (([⟨1, "AAPL", "BUY", 10, 100, 110, 0⟩, ⟨2, "AAPL", "BUY", 5, 120, 202, 0⟩] :
        List Trade).map Trade.id).Nodup ∧
    PositionEngine.init.process_trades
        [⟨1, "AAPL", "BUY", 10, 100, 110, 0⟩, ⟨2, "AAPL", "BUY", 5, 120, 202, 0⟩] =
      PositionEngine.init.process_trades
        [⟨2, "AAPL", "BUY", 5, 120, 202, 0⟩, ⟨1, "AAPL", "BUY", 10, 100, 110, 0⟩] :=
  ⟨List.Perm.swap _ _ _, by with_unfolding_all decide,
   process_trades_perm_invariant PositionEngine.init PositionEngine.init
     (List.Perm.swap _ _ _) (by with_unfolding_all decide)⟩

theorem lookupPos_setPos_self (ps : List (String × Position)) (k : String) (p : Position) :
    lookupPos (setPos ps k p) k = some p := by
  induction ps with
  | nil =>
    simp [setPos, lookupPos]
  | cons kp rest ih =>
    obtain ⟨k0, q⟩ := kp
    unfold setPos
    by_cases h0 : k0 = k
    · simp [h0, lookupPos]
    · simp only [h0, if_false]
      unfold lookupPos
      simp [h0, ih]

theorem lookupPos_setPos_other (ps : List (String × Position)) (k k' : String) (p : Position)
    (h : k ≠ k') : lookupPos (setPos ps k p) k' = lookupPos ps k' := by
  induction ps with
  | nil =>
    simp [setPos, lookupPos, h]
  | cons kp rest ih =>
    obtain ⟨k0, q⟩ := kp
    unfold setPos
    by_cases h0 : k0 = k
    · subst h0
      simp [lookupPos, h]
    · simp only [h0, if_false]
      unfold lookupPos
      by_cases h1 : k0 = k'
      · simp [h1]
      · simp [h1, ih]

theorem setPos_lookup_self (ps : List (String × Position)) (k : String) (q : Position)
    (h : lookupPos ps k = some q) : setPos ps k q = ps := by
  induction ps with
  | nil =>
    simp [lookupPos] at h
  | cons kp rest ih =>
    obtain ⟨k0, p0⟩ := kp
    unfold lookupPos at h
    unfold setPos
    by_cases h0 : k0 = k
    · simp only [h0, if_true] at h ⊢
      obtain rfl : p0 = q := by
        injection h
      rfl
    · simp only [h0, if_false] at h ⊢
      rw [ih h]

theorem step_positions_other (e : PositionEngine) (tr : Trade) (T : String)
    (h : upperString tr.ticker ≠ T) :
    lookupPos (e.step tr).positions T = lookupPos e.positions T := by
  unfold PositionEngine.step
  by_cases hb : tr.side = "BUY"
  · simp only [hb, if_true]
    exact lookupPos_setPos_other _ _ _ _ h
  · by_cases hs : tr.side = "SELL"
    · simp only [hb, hs, if_false, if_true]
      rcases hps : ((lookupPos e.positions (upperString tr.ticker)).getD
          (Position.init (upperString tr.ticker))).process_sell
          tr.shares tr.price_usd tr.trade_date tr.id tr.fee_usd with msg | r
      · simp only [hps]
        exact lookupPos_setPos_other _ _ _ _ h
      · simp only [hps]
        exact lookupPos_setPos_other _ _ _ _ h
    · simp only [hb, hs, if_false]
      exact lookupPos_setPos_other _ _ _ _ h

theorem step_failing_sell_entry (e : PositionEngine) (tr : Trade) (T : String)
    (ht : upperString tr.ticker = T) (hside : tr.side = "SELL") (hsh : 0 < tr.shares)
    (hcur : lookupPos e.positions T = none ∨
      lookupPos e.positions T = some (Position.init T)) :
    lookupPos (e.step tr).positions T = some (Position.init T) := by
  unfold PositionEngine.step
  rw [ht]
  dsimp only
  have hpos : (lookupPos e.positions T).getD (Position.init T) = Position.init T := by
    rcases hcur with h | h <;> simp [h]
  rw [hpos]
  have hBuy : tr.side = "BUY" ↔ False := by
    rw [hside]; simp
  have hSell : tr.side = "SELL" ↔ True := by
    rw [hside]; simp
  simp only [hBuy, hSell, if_false, if_true, iff_true]
  have hfail : (Position.init T).process_sell tr.shares tr.price_usd tr.trade_date
      tr.id tr.fee_usd = Except.error "sell quantity exceeds held quantity" := by
    unfold Position.process_sell
    rw [if_pos]
    show (0 : ℚ) < tr.shares
    exact hsh
  rw [hfail]
  exact lookupPos_setPos_self _ _ _

theorem foldl_skipped_sell (T : String) (l : List Trade)
    (hl : ∀ u ∈ l, upperString u.ticker = T → u.side = "SELL" ∧ 0 < u.shares) :
    ∀ e : PositionEngine,
      (lookupPos e.positions T = none ∨
        lookupPos e.positions T = some (Position.init T)) →
      ((lookupPos (l.foldl PositionEngine.step e).positions T = none ∨
        lookupPos (l.foldl PositionEngine.step e).positions T = some (Position.init T)) ∧
       (lookupPos e.positions T = some (Position.init T) →
        lookupPos (l.foldl PositionEngine.step e).positions T = some (Position.init T)) ∧
       ((∃ u ∈ l, upperString u.ticker = T) →
        lookupPos (l.foldl PositionEngine.step e).positions T =
          some (Position.init T))) := by
  induction l with
  | nil =>
    intro e hcur
    refine ⟨hcur, fun h => h, ?_⟩
    intro h
    simp at h
  | cons u rest ih =>
    intro e hcur
    have hl' : ∀ v ∈ rest, upperString v.ticker = T → v.side = "SELL" ∧ 0 < v.shares :=
      fun v hv => hl v (List.mem_cons_of_mem u hv)
    simp only [List.foldl_cons]
    by_cases hu : upperString u.ticker = T
    · obtain ⟨huside, hush⟩ := hl u (List.mem_cons_self u rest) hu
      have hset : lookupPos (e.step u).positions T = some (Position.init T) :=
        step_failing_sell_entry e u T hu huside hush hcur
      obtain ⟨P, Q, R⟩ := ih hl' (e.step u) (Or.inr hset)
      exact ⟨P, fun _ => Q hset, fun _ => Q hset⟩
    · have hkeep : lookupPos (e.step u).positions T = lookupPos e.positions T :=
        step_positions_other e u T hu
      obtain ⟨P, Q, R⟩ := ih hl' (e.step u) (by rw [hkeep]; exact hcur)
      refine ⟨P, ?_, ?_⟩
      · intro h
        exact Q (by rw [hkeep]; exact h)
      · intro hex
        obtain ⟨v, hv, hvT⟩ := hex
        rcases List.mem_cons.mp hv with rfl | hvrest
        · exact absurd hvT hu
        · exact R ⟨v, hvrest, hvT⟩

/-- C9: if the only trades of a ticker in the input are failing sells
(here: a positive-share SELL with no prior holdings), replay still
creates the ticker's entry before validating the sell, so `get_position`
returns the empty, closed position rather than `none`. -/
theorem skipped_sell_creates_entry (l : List Trade) (t : Trade)
    (hmem : t ∈ l) (hside : t.side = "SELL") (hsh : 0 < t.shares)
    (honly : ∀ u ∈ l, upperString u.ticker = upperString t.ticker → u = t) :
    (PositionEngine.init.process_trades l).get_position t.ticker =
      some (Position.init (upperString t.ticker)) := by
  unfold PositionEngine.process_trades PositionEngine.get_position sortTrades
  have hl : ∀ u ∈ List.insertionSort tradeLe l,
      upperString u.ticker = upperString t.ticker → u.side = "SELL" ∧ 0 < u.shares := by
    intro u hu hT
    have humem : u ∈ l := (List.perm_insertionSort tradeLe l).mem_iff.mp hu
    have hut := honly u humem hT
    subst hut
    exact ⟨hside, hsh⟩
  obtain ⟨-, -, R⟩ := foldl_skipped_sell (upperString t.ticker)
    (List.insertionSort tradeLe l) hl PositionEngine.init (Or.inl rfl)
  exact R ⟨t, (List.perm_insertionSort tradeLe l).mem_iff.mpr hmem, rfl⟩

theorem skipped_sell_creates_entry_witness :
    ((⟨1, "AAPL", "SELL", 1, 10, 110, 0⟩ : Trade) ∈
      ([⟨1, "AAPL", "SELL", 1, 10, 110, 0⟩] : List Trade)) ∧
    (PositionEngine.init.process_trades
        [(⟨1, "AAPL", "SELL", 1, 10, 110, 0⟩ : Trade)]).get_position "AAPL" =
      some (Position.init (upperString "AAPL")) :=
  ⟨List.mem_cons_self _ _,
   skipped_sell_creates_entry [⟨1, "AAPL", "SELL", 1, 10, 110, 0⟩]
     ⟨1, "AAPL", "SELL", 1, 10, 110, 0⟩ (List.mem_cons_self _ _) rfl
     (by with_unfolding_all decide) (by with_unfolding_all decide)⟩

theorem step_failing_sell (e : PositionEngine) (tr : Trade)
    (hside : tr.side = "SELL")
    (hfail : ((lookupPos e.positions (upperString tr.ticker)).getD
        (Position.init (upperString tr.ticker))).total_shares < tr.shares) :
    e.step tr = ensurePosition e (upperString tr.ticker) := by
  unfold PositionEngine.step ensurePosition
  dsimp only
  have hBuy : tr.side = "BUY" ↔ False := by rw [hside]; simp
  have hSell : tr.side = "SELL" ↔ True := by rw [hside]; simp
  simp only [hBuy, hSell, if_false, if_true, iff_true]
  have hps : ((lookupPos e.positions (upperString tr.ticker)).getD
      (Position.init (upperString tr.ticker))).process_sell
      tr.shares tr.price_usd tr.trade_date tr.id tr.fee_usd =
      Except.error "sell quantity exceeds held quantity" := by
    unfold Position.process_sell
    rw [if_pos hfail]
  rw [hps]

theorem ensurePosition_present (e : PositionEngine) (tk : String) (q : Position)
    (h : lookupPos e.positions tk = some q) : ensurePosition e tk = e := by
  unfold ensurePosition
  rw [h]
  simp only [Option.getD_some]
  rw [setPos_lookup_self e.positions tk q h]

/-- C5 counterexample: a single failing SELL is skipped, yet the final
engine state differs from the replay without it — the skipped trade
still creates an (empty) position entry for its ticker. -/
theorem skip_and_continue_counterexample :
    PositionEngine.init.process_trades [⟨1, "AAPL", "SELL", 1, 10, 110, 0⟩] ≠
      PositionEngine.init.process_trades [] := by
  with_unfolding_all decide

/-- C5 (amended): when a SELL fails the oversell validation during
replay, only that trade is skipped — it contributes no realized record
and no position mutation, and every remaining trade is still processed —
but the skipped trade still ensures its ticker has a position entry.  The
final state therefore equals the replay of the list with the failing
trade removed whenever the ticker already has an entry at that point
(and, in general, equals that replay resumed from the entry-ensured
state). -/
theorem skip_and_continue (l₁ l₂ : List Trade) (t : Trade)
    (hside : t.side = "SELL")
    (hfail : ((lookupPos (l₁.foldl PositionEngine.step PositionEngine.init).positions
        (upperString t.ticker)).getD
        (Position.init (upperString t.ticker))).total_shares < t.shares) :
    (l₁ ++ t :: l₂).foldl PositionEngine.step PositionEngine.init =
      l₂.foldl PositionEngine.step
        (ensurePosition (l₁.foldl PositionEngine.step PositionEngine.init)
          (upperString t.ticker)) ∧
    (∀ q, lookupPos (l₁.foldl PositionEngine.step PositionEngine.init).positions
        (upperString t.ticker) = some q →
      (l₁ ++ t :: l₂).foldl PositionEngine.step PositionEngine.init =
        (l₁ ++ l₂).foldl PositionEngine.step PositionEngine.init) := by
  have hstep := step_failing_sell (l₁.foldl PositionEngine.step PositionEngine.init)
    t hside hfail
  constructor
  · rw [List.foldl_append]
    simp only [List.foldl_cons]
    rw [hstep]
  · intro q hq
    rw [List.foldl_append, List.foldl_append]
    simp only [List.foldl_cons]
    rw [hstep, ensurePosition_present _ _ q hq]

theorem skip_and_continue_witness :
    ((⟨2, "AAPL", "SELL", 5, 10, 202, 0⟩ : Trade).side = "SELL") ∧
    (([(⟨1, "AAPL", "BUY", 2, 10, 110, 0⟩ : Trade)] ++
        (⟨2, "AAPL", "SELL", 5, 10, 202, 0⟩ : Trade) ::
          [(⟨3, "AAPL", "BUY", 1, 20, 315, 0⟩ : Trade)]).foldl
        PositionEngine.step PositionEngine.init =
      ([(⟨1, "AAPL", "BUY", 2, 10, 110, 0⟩ : Trade)] ++
          [(⟨3, "AAPL", "BUY", 1, 20, 315, 0⟩ : Trade)]).foldl
        PositionEngine.step PositionEngine.init) :=
  ⟨rfl,
   (skip_and_continue [⟨1, "AAPL", "BUY", 2, 10, 110, 0⟩]
       [⟨3, "AAPL", "BUY", 1, 20, 315, 0⟩] ⟨2, "AAPL", "SELL", 5, 10, 202, 0⟩
       rfl (by with_unfolding_all decide)).2
     (((Position.init "AAPL").add_buy 2 10 110 1 0))
     (by with_unfolding_all decide)⟩

theorem sum_realized_setPos_none (ps : List (String × Position)) (k : String)
    (p : Position) (h : lookupPos ps k = none) :
    ((setPos ps k p).map (fun kp => kp.2.realized_pl)).sum =
      (ps.map (fun kp => kp.2.realized_pl)).sum + p.realized_pl := by
  induction ps with
  | nil =>
    simp [setPos]
  | cons kp rest ih =>
    obtain ⟨k0, q⟩ := kp
    unfold lookupPos at h
    by_cases h0 : k0 = k
    · simp [h0] at h
    · simp only [h0, if_false] at h
      unfold setPos
      simp only [h0, if_false, List.map_cons, List.sum_cons]
      rw [ih h]
      ring

theorem sum_realized_setPos_some (ps : List (String × Position)) (k : String)
    (p q : Position) (h : lookupPos ps k = some q) :
    ((setPos ps k p).map (fun kp => kp.2.realized_pl)).sum =
      (ps.map (fun kp => kp.2.realized_pl)).sum - q.realized_pl + p.realized_pl := by
  induction ps with
  | nil =>
    simp [lookupPos] at h
  | cons kp rest ih =>
    obtain ⟨k0, q0⟩ := kp
    unfold lookupPos at h
    by_cases h0 : k0 = k
    · simp only [h0, if_true] at h
      obtain rfl : q0 = q := by injection h
      unfold setPos
      simp only [h0, if_true, List.map_cons, List.sum_cons]
      ring
    · simp only [h0, if_false] at h
      unfold setPos
      simp only [h0, if_false, List.map_cons, List.sum_cons]
      rw [ih h]
      ring

theorem process_sell_realized {p : Position} {s pr : ℚ} {d i : Nat} {f : ℚ}
    {r : RealizedInfo × Position}
    (h : p.process_sell s pr d i f = Except.ok r) :
    r.2.realized_pl = p.realized_pl + r.1.pl_usd := by
  unfold Position.process_sell at h
  by_cases hover : p.total_shares < s
  · simp [hover] at h
  · simp only [hover, if_false, Except.ok.injEq] at h
    subst h
    rfl

theorem add_buy_realized (p : Position) (s pr : ℚ) (d i : Nat) (f : ℚ) :
    (p.add_buy s pr d i f).realized_pl = p.realized_pl := rfl

theorem step_total_realized (e : PositionEngine) (tr : Trade)
    (h : (e.positions.map (fun kp => kp.2.realized_pl)).sum =
      (e.all_realized_pl.map RealizedInfo.pl_usd).sum) :
    (((e.step tr).positions).map (fun kp => kp.2.realized_pl)).sum =
      ((e.step tr).all_realized_pl.map RealizedInfo.pl_usd).sum := by
  unfold PositionEngine.step
  dsimp only
  by_cases hb : tr.side = "BUY"
  · simp only [hb, if_true]
    rcases hcur : lookupPos e.positions (upperString tr.ticker) with _ | q
    · simp only [hcur, Option.getD_none]
      rw [sum_realized_setPos_none _ _ _ hcur, add_buy_realized]
      show _ + (Position.init (upperString tr.ticker)).realized_pl = _
      rw [h]
      show _ + 0 = _
      ring
    · simp only [hcur, Option.getD_some]
      rw [sum_realized_setPos_some _ _ _ q hcur, add_buy_realized, h]
      ring
  · by_cases hs : tr.side = "SELL"
    · have hBuy : tr.side = "BUY" ↔ False := by rw [hs]; simp
      have hSell : tr.side = "SELL" ↔ True := by rw [hs]; simp
      simp only [hBuy, hSell, if_false, if_true, iff_true]
      rcases hcur : lookupPos e.positions (upperString tr.ticker) with _ | q
      · simp only [hcur, Option.getD_none]
        rcases hps : (Position.init (upperString tr.ticker)).process_sell
            tr.shares tr.price_usd tr.trade_date tr.id tr.fee_usd with msg | r
        · simp only [hps]
          rw [sum_realized_setPos_none _ _ _ hcur, h]
          show _ + (0 : ℚ) = _
          ring
        · simp only [hps]
          rw [sum_realized_setPos_none _ _ _ hcur, process_sell_realized hps]
          show _ + ((0 : ℚ) + r.1.pl_usd) = _
          simp only [List.map_append, List.sum_append, List.map_cons, List.sum_cons,
            List.map_nil, List.sum_nil]
          rw [h]
          ring
      · simp only [hcur, Option.getD_some]
        rcases hps : q.process_sell tr.shares tr.price_usd tr.trade_date tr.id
            tr.fee_usd with msg | r
        · simp only [hps]
          rw [sum_realized_setPos_some _ _ _ q hcur, h]
          ring
        · simp only [hps]
          rw [sum_realized_setPos_some _ _ _ q hcur, process_sell_realized hps]
          simp only [List.map_append, List.sum_append, List.map_cons, List.sum_cons,
            List.map_nil, List.sum_nil]
          rw [h]
          ring
    · simp only [hb, hs, if_false]
      rcases hcur : lookupPos e.positions (upperString tr.ticker) with _ | q
      · simp only [hcur, Option.getD_none]
        rw [sum_realized_setPos_none _ _ _ hcur, h]
        show _ + (0 : ℚ) = _
        ring
      · simp only [hcur, Option.getD_some]
        rw [sum_realized_setPos_some _ _ _ q hcur, h]
        ring

theorem foldl_total_realized (l : List Trade) :
    ∀ e : PositionEngine,
      (e.positions.map (fun kp => kp.2.realized_pl)).sum =
        (e.all_realized_pl.map RealizedInfo.pl_usd).sum →
      (((l.foldl PositionEngine.step e).positions).map (fun kp => kp.2.realized_pl)).sum =
        ((l.foldl PositionEngine.step e).all_realized_pl.map RealizedInfo.pl_usd).sum := by
  induction l with
  | nil =>
    intro e he
    simpa using he
  | cons tr rest ih =>
    intro e he
    simp only [List.foldl_cons]
    exact ih _ (step_total_realized e tr he)

/-- C10: after one `process_trades` run on a fresh engine, the sum of
`realized_pl` over all positions equals the sum of `pl_usd` over the
engine-wide realized-record history — each successful sell adds the same
net amount to both views and a skipped sell contributes to neither. -/
theorem realized_totals_agree (e : PositionEngine) (l : List Trade) :
    (e.process_trades l).get_total_realized_pl =
      ((e.process_trades l).get_all_realized_pl_history.map RealizedInfo.pl_usd).sum := by
  unfold PositionEngine.process_trades PositionEngine.get_all_realized_pl_history
    PositionEngine.get_total_realized_pl
  exact foldl_total_realized (sortTrades l) PositionEngine.init (by simp [PositionEngine.init])
